import Mathlib

set_option maxRecDepth 8000

/-!
Verification development for the micro-benchmark harness in `sample/main.c`.

The program consists of three kernels plus a sequencing harness:
* `sieve_count_primes` — Sieve of Eratosthenes counting primes up to a limit;
* `matrix_mul_test`     — deterministic LCG-initialised dense matrix multiply
                          with a sampled checksum;
* `mandelbrot_ppm`      — escape-time Mandelbrot rasterizer writing a binary
                          P6 PPM image;
* `main`                — runs the three kernels in a fixed order and exits 0.

Modelling conventions:
* C `int` values are modelled as `Int` (the program never approaches the
  `int` overflow range on the inputs it uses); loop indices that are
  provably non-negative are modelled as `Nat`.
* C `double` arithmetic is modelled exactly over `ℚ`.  All claims settled
  here depend only on the data flow or on integer-valued quantities
  (iteration counts, byte values, lengths), not on IEEE rounding.
* An out-of-bounds array access is undefined behaviour in C; the embedding
  makes every sieve-array access bounds-checked and returns `none` when an
  access falls outside the allocation.
* `while`/`for` loops are translated as structural recursion on an explicit
  iteration budget.  For each loop the budget passed at the call site is
  proved (or evident) to exceed the number of iterations the loop can
  perform, so the budget case never fires on the success path.
* `malloc` success/failure is an explicit `Bool` parameter of each kernel
  (the environment decides it); the kernel code itself is translated
  faithfully for both outcomes.
-/

/-! ## Sieve of Eratosthenes (`sieve_count_primes`, main.c lines 34–49) -/

/-- Bounds-checked write to the flag array: C `isprime[i] = v`.
Out of bounds is undefined behaviour, modelled as `none`. -/
def bSet (l : List Bool) (i : Nat) (v : Bool) : Option (List Bool) :=
  if i < l.length then some (l.set i v) else none

/-- Bounds-checked read of the flag array: C `isprime[i]`.
Out of bounds is undefined behaviour, modelled as `none`. -/
def bGet (l : List Bool) (i : Nat) : Option Bool :=
  l.get? i

/-- Inner marking loop: C `for(int q=p*p; q<=limit; q+=p) isprime[q]=0;`.
The first argument is the iteration budget; every call site supplies a
budget larger than the number of iterations, so the `0` case is never
reached on the success path. -/
def markStep (limit p : Nat) : Nat → Nat → List Bool → Option (List Bool)
  | 0, _, _ => none
  | fuel + 1, q, l =>
    if q ≤ limit then (bSet l q false).bind (markStep limit p fuel (q + p)) else some l

/-- Outer sieve loop: C `for(int p=2; p*p<=limit; ++p) if(isprime[p]) …`. -/
def outerStep (limit : Nat) : Nat → Nat → List Bool → Option (List Bool)
  | 0, _, _ => none
  | fuel + 1, p, l =>
    if p * p ≤ limit then
      (bGet l p).bind fun b =>
        (if b then markStep limit p (limit + 1) (p * p) l else some l).bind
          (outerStep limit fuel (p + 1))
    else some l

/-- Counting loop: C `for(int i=2;i<=limit;++i) if(isprime[i]) ++cnt;`. -/
def countStep (limit : Nat) : Nat → Nat → Nat → List Bool → Option Nat
  | 0, _, _, _ => none
  | fuel + 1, i, cnt, l =>
    if i ≤ limit then
      (bGet l i).bind fun b => countStep limit fuel (i + 1) (if b then cnt + 1 else cnt) l
    else some cnt

/-- C `sieve_count_primes(int limit, int *out_count)` (main.c lines 34–49).

`allocOk` is the outcome of `malloc(limit + 1)`: when it fails the code
stores `-1` in `*out_count` and returns.  When it succeeds the code does
`memset(isprime, 1, n)` (`List.replicate`), clears `isprime[1]` and
`isprime[0]` (in that evaluation order, as in `isprime[0]=isprime[1]=0`),
runs the sieve, and counts the surviving flags in `[2, limit]`.

For `limit + 1 < 0` the C code passes a negative `int` to `malloc`, which
converts to an astronomically large `size_t`; no such allocation can
succeed, and the combination with `allocOk = true` is modelled as `none`.
Any out-of-bounds flag access likewise yields `none`. -/
def sieve_count_primes (limit : Int) (allocOk : Bool) : Option Int :=
  if allocOk = false then some (-1)
  else if limit + 1 < 0 then none
  else
    let n : Nat := (limit + 1).toNat
    let limitN : Nat := limit.toNat
    let l0 : List Bool := List.replicate n true
    (bSet l0 1 false).bind fun l1 =>
    (bSet l1 0 false).bind fun l2 =>
    (outerStep limitN (limitN + 1) 2 l2).bind fun l3 =>
    (countStep limitN (limitN + 2) 2 0 l3).map fun c => (c : Int)

example : sieve_count_primes 1 true = some 0 := by decide
example : sieve_count_primes 10 true = some 4 := by decide
example : sieve_count_primes 100 true = some 25 := by decide

/-- Claim C1: the contract says `count_primes(limit) = 0` for every
`limit < 2`, but at `limit = 0` the code allocates `limit + 1 = 1` flag
byte and then executes `isprime[0] = isprime[1] = 0`, writing one byte
past the allocation — undefined behaviour, so the function cannot be
relied on to return 0 there.  The embedding, which checks every flag
access against the allocation bounds, evaluates to `none` (the
out-of-bounds write) at `limit = 0` even though allocation succeeded. -/
theorem sieve_count_primes_limit_zero_oob : sieve_count_primes 0 true = none := by decide

/-- One-step unfolding of `markStep`. -/
theorem markStep_succ (limit p fuel q : Nat) (l : List Bool) :
    markStep limit p (fuel + 1) q l =
      if q ≤ limit then (bSet l q false).bind (markStep limit p fuel (q + p))
      else some l := rfl

/-- One-step unfolding of `outerStep`. -/
theorem outerStep_succ (limit fuel p : Nat) (l : List Bool) :
    outerStep limit (fuel + 1) p l =
      if p * p ≤ limit then
        (bGet l p).bind fun b =>
          (if b then markStep limit p (limit + 1) (p * p) l else some l).bind
            (outerStep limit fuel (p + 1))
      else some l := rfl

/-- One-step unfolding of `countStep`. -/
theorem countStep_succ (limit fuel i cnt : Nat) (l : List Bool) :
    countStep limit (fuel + 1) i cnt l =
      if i ≤ limit then
        (bGet l i).bind fun b => countStep limit fuel (i + 1) (if b then cnt + 1 else cnt) l
      else some cnt := rfl

/-- On a flag array of length `limit + 1` the marking loop stays in bounds
(each write is guarded by `q ≤ limit`) and does not run out of budget as
long as the budget exceeds the remaining iteration count. -/
theorem markStep_some (limit p : Nat) :
    ∀ fuel q l, l.length = limit + 1 → limit + 1 ≤ q + fuel * p →
      ∃ l', markStep limit p (fuel + 1) q l = some l' ∧ l'.length = limit + 1 := by
  intro fuel
  induction fuel with
  | zero =>
    intro q l hl hq
    refine ⟨l, ?_, hl⟩
    have : ¬ q ≤ limit := by omega
    rw [markStep_succ, if_neg this]
  | succ f ih =>
    intro q l hl hq
    rw [markStep_succ]
    by_cases hcond : q ≤ limit
    · have hb : q < l.length := by omega
      have hset : bSet l q false = some (l.set q false) := by simp [bSet, hb]
      have hlen : (l.set q false).length = limit + 1 := by simp [hl]
      obtain ⟨l', hrec, hl'⟩ := ih (q + p) (l.set q false) hlen (by
        have : q + (f + 1) * p = q + p + f * p := by ring
        omega)
      exact ⟨l', by rw [if_pos hcond, hset, Option.some_bind, hrec], hl'⟩
    · exact ⟨l, by rw [if_neg hcond], hl⟩

/-- On a flag array of length `limit + 1` the outer sieve loop stays in
bounds: the read `isprime[p]` is guarded by `p * p ≤ limit` (so `p ≤ limit`
since `p ≥ 1`), and the marking loop runs with ample budget. -/
theorem outerStep_some (limit : Nat) :
    ∀ fuel p l, 1 ≤ p → l.length = limit + 1 → limit + 1 ≤ p + fuel →
      ∃ l', outerStep limit (fuel + 1) p l = some l' ∧ l'.length = limit + 1 := by
  intro fuel
  induction fuel with
  | zero =>
    intro p l hp hl hfuel
    have hpp : p ≤ p * p := Nat.le_mul_of_pos_left p (by omega)
    have hno : ¬ p * p ≤ limit := by omega
    exact ⟨l, by rw [outerStep_succ, if_neg hno], hl⟩
  | succ f ih =>
    intro p l hp hl hfuel
    rw [outerStep_succ]
    by_cases hcond : p * p ≤ limit
    · have hpp : p ≤ p * p := Nat.le_mul_of_pos_left p (by omega)
      have hb : p < l.length := by omega
      have hget : bGet l p = some (l.get ⟨p, hb⟩) := List.get?_eq_get hb
      have hmark : ∃ l₂, (if l.get ⟨p, hb⟩ then markStep limit p (limit + 1) (p * p) l
                 else some l) = some l₂ ∧ l₂.length = limit + 1 := by
        by_cases hbit : l.get ⟨p, hb⟩
        · have hbudget : limit + 1 ≤ p * p + limit * p := by
            have h1 : limit * 1 ≤ limit * p := Nat.mul_le_mul_left limit hp
            have h2 : 0 < p * p := Nat.mul_pos (by omega) (by omega)
            omega
          obtain ⟨l₂, hm, hl₂⟩ := markStep_some limit p limit (p * p) l hl hbudget
          exact ⟨l₂, by rw [if_pos hbit]; exact hm, hl₂⟩
        · exact ⟨l, by rw [if_neg hbit], hl⟩
      obtain ⟨l₂, hm, hl₂⟩ := hmark
      obtain ⟨l₃, hrec, hl₃⟩ := ih (p + 1) l₂ (by omega) hl₂ (by omega)
      refine ⟨l₃, ?_, hl₃⟩
      rw [if_pos hcond, hget, Option.some_bind, hm, Option.some_bind, hrec]
    · exact ⟨l, by rw [if_neg hcond], hl⟩

/-- On a flag array of length `limit + 1` the counting loop stays in bounds:
the read `isprime[i]` is guarded by `i ≤ limit`. -/
theorem countStep_some (limit : Nat) :
    ∀ fuel i cnt l, l.length = limit + 1 → limit + 1 ≤ i + fuel →
      ∃ c, countStep limit (fuel + 1) i cnt l = some c := by
  intro fuel
  induction fuel with
  | zero =>
    intro i cnt l hl hfuel
    have hno : ¬ i ≤ limit := by omega
    exact ⟨cnt, by rw [countStep_succ, if_neg hno]⟩
  | succ f ih =>
    intro i cnt l hl hfuel
    by_cases hcond : i ≤ limit
    · have hb : i < l.length := by omega
      have hget : bGet l i = some (l.get ⟨i, hb⟩) := List.get?_eq_get hb
      obtain ⟨c, hrec⟩ := ih (i + 1) (if l.get ⟨i, hb⟩ then cnt + 1 else cnt) l hl (by omega)
      exact ⟨c, by rw [countStep_succ, if_pos hcond, hget, Option.some_bind, hrec]⟩
    · exact ⟨cnt, by rw [countStep_succ, if_neg hcond]⟩

/-- Claim C9: for every `limit ≥ 1` on which allocation succeeds, every
read and write `sieve_count_primes` performs on its flag array is within
the `limit + 1` allocated entries, so the embedded function (which returns
`none` exactly when an access is out of bounds or a loop budget is
exhausted) is total: it returns `some` count. -/
theorem sieve_accesses_in_bounds (limit : Int) (h : 1 ≤ limit) :
    (sieve_count_primes limit true).isSome := by
  have hneg : ¬ limit + 1 < 0 := by omega
  have htn : (limit + 1).toNat = limit.toNat + 1 := by omega
  have hlim : 1 ≤ limit.toNat := by omega
  unfold sieve_count_primes
  simp only [hneg, if_false, htn]
  have h0 : (List.replicate (limit.toNat + 1) true).length = limit.toNat + 1 := by simp
  have hb1 : 1 < (List.replicate (limit.toNat + 1) true).length := by omega
  have hset1 : bSet (List.replicate (limit.toNat + 1) true) 1 false
      = some ((List.replicate (limit.toNat + 1) true).set 1 false) := by
    simp only [bSet]; rw [if_pos hb1]
  set l1 := (List.replicate (limit.toNat + 1) true).set 1 false with hl1def
  have hl1 : l1.length = limit.toNat + 1 := by simp [hl1def]
  have hb0 : 0 < l1.length := by omega
  have hset0 : bSet l1 0 false = some (l1.set 0 false) := by
    simp only [bSet]; rw [if_pos hb0]
  set l2 := l1.set 0 false with hl2def
  have hl2 : l2.length = limit.toNat + 1 := by simp [hl2def, hl1]
  obtain ⟨l3, houter, hl3⟩ :=
    outerStep_some limit.toNat limit.toNat 2 l2 (by omega) hl2 (by omega)
  obtain ⟨c, hcount⟩ :=
    countStep_some limit.toNat (limit.toNat + 1) 2 0 l3 hl3 (by omega)
  simp [hset1, hset0, houter, hcount, ← hl1def, ← hl2def]

/-- Witness for C9 at `limit = 10`. -/
theorem sieve_accesses_in_bounds_witness :
    (1 ≤ (10 : Int)) ∧ (sieve_count_primes 10 true).isSome :=
  ⟨by decide, sieve_accesses_in_bounds 10 (by decide)⟩

/-! ## Matrix multiply (`matrix_mul_test`, main.c lines 51–93)

Matrices are row-major `List ℚ` of length `M * M`, as in the C code's
contiguous `double` arrays.  All matrix indices generated by the loops are
in bounds (`i*M + j < M*M` for `i, j < M`), so reads use `List.getD` and
writes use `List.set`. -/

/-- One step of the C LCG: `seed = seed * 1103515245 + 12345` on
`unsigned int` (arithmetic modulo `2^32`). -/
def lcgNext (s : Nat) : Nat := (s * 1103515245 + 12345) % 4294967296

/-- C `(double)(seed % 1000) / 100.0`, the value stored into a matrix
entry. -/
def entryVal (s : Nat) : ℚ := ((s % 1000 : Nat) : ℚ) / 100

/-- The initialization loop (main.c lines 61–68): for each flat index in
order, advance the generator and store `A[i]`, advance again and store
`B[i]` (`C[i] = 0` is modelled by `List.replicate` at the multiply).
Returns the pair `(A, B)` for `n` cells starting from `seed`. -/
def matInitGo (seed : Nat) : Nat → List ℚ × List ℚ
  | 0 => ([], [])
  | m + 1 =>
    let s1 := lcgNext seed
    let s2 := lcgNext s1
    let rest := matInitGo s2 m
    (entryVal s1 :: rest.1, entryVal s2 :: rest.2)

/-- The two input matrices, generated from the fixed seed `123456789`. -/
def matInit (n : Nat) : List ℚ × List ℚ := matInitGo 123456789 n

/-- Innermost multiply loop: C `for(int j=0;j<M;j++) C[i*M+j] += aik * B[k*M+j];`,
as recursion on the `M - j` remaining iterations. -/
def mulJ (M i k : Nat) (aik : ℚ) (B : List ℚ) : Nat → Nat → List ℚ → List ℚ
  | 0, _, C => C
  | r + 1, j, C =>
    mulJ M i k aik B r (j + 1)
      (C.set (i * M + j) (C.getD (i * M + j) 0 + aik * B.getD (k * M + j) 0))

/-- Middle multiply loop: C `for(int k=0;k<M;k++){ double aik = A[i*M+k]; … }`. -/
def mulK (M i : Nat) (A B : List ℚ) : Nat → Nat → List ℚ → List ℚ
  | 0, _, C => C
  | r + 1, k, C => mulK M i A B r (k + 1) (mulJ M i k (A.getD (i * M + k) 0) B M 0 C)

/-- Outer multiply loop: C `for(int i=0;i<M;i++) …`. -/
def mulI (M : Nat) (A B : List ℚ) : Nat → Nat → List ℚ → List ℚ
  | 0, _, C => C
  | r + 1, i, C => mulI M A B r (i + 1) (mulK M i A B M 0 C)

/-- The i-k-j accumulation-order multiply of main.c lines 72–79, starting
from the zero-initialised `C`. -/
def matMul (M : Nat) (A B : List ℚ) : List ℚ :=
  mulI M A B M 0 (List.replicate (M * M) 0)

/-- The result matrix `C` of the kernel at size `M`: inputs generated by
the seeded LCG, multiplied in i-k-j order. -/
def matMulFull (M : Nat) : List ℚ :=
  matMul M (matInit (M * M)).1 (matInit (M * M)).2

/-- The checksum stride of main.c line 85: `(M > 8 ? M/8 : 1)`. -/
def matStride (M : Nat) : Nat := if 8 < M then M / 8 else 1

/-- The checksum loop (main.c lines 84–87):
`for(int i=0;i<M;i+=(M>8?M/8:1)) checksum += C[i*M + (i%M)];`,
as recursion on an iteration budget.  The loop runs at most `M` times
(the stride is at least 1), so a budget of `M` is exact: the budget and
the loop condition run out together. -/
def checksumGo (M : Nat) (C : List ℚ) : Nat → Nat → ℚ → ℚ
  | 0, _, acc => acc
  | fuel + 1, i, acc =>
    if i < M then checksumGo M C fuel (i + matStride M) (acc + C.getD (i * M + i % M) 0)
    else acc

/-- The checksum the kernel prints for size `M`. -/
def matChecksum (M : Nat) : ℚ := checksumGo M (matMulFull M) M 0 0

/-- C `matrix_mul_test(int M, double *out_time)` (main.c lines 51–93).

`allocOk` is the joint outcome of the three `malloc`s: on failure the code
stores `-1` in `*out_time` and returns without printing a checksum.  On
success it initialises `A`, `B`, `C`, reads the clock before and after the
multiply, stores the clock difference, and prints the checksum.  `clock k`
is the value returned by the `k`-th call to `now_seconds`.  The result is
`(out_time, printed checksum)`. -/
def matrix_mul_test (M : Nat) (allocOk : Bool) (clock : Nat → ℚ) : ℚ × Option ℚ :=
  if allocOk = false then (-1, none)
  else
    let AB := matInit (M * M)
    let t0 := clock 0
    let C := matMul M AB.1 AB.2
    let t1 := clock 1
    (t1 - t0, some (checksumGo M C M 0 0))

/-- Claim C2: the checksum printed by the matrix kernel is a function of
`M` alone.  The only run-to-run inputs of the kernel besides `M` are the
clock readings; for any two clock behaviours the printed checksum is
identical, and equals the clock-free value `matChecksum M`.  (The kernel
is branch-free on the success path and seeds its generator with the fixed
constant `123456789`, so the embedding makes the checksum literally
independent of the clock; IEEE double operations are deterministic
functions, so this data-flow fact carries over to the C arithmetic.) -/
theorem matrix_checksum_deterministic (M : Nat) (clock clock' : Nat → ℚ) :
    (matrix_mul_test M true clock).2 = (matrix_mul_test M true clock').2 ∧
    (matrix_mul_test M true clock).2 = some (matChecksum M) := ⟨rfl, rfl⟩

/-- The straightforward reference triple-loop multiplication of the
spec (§8): entry `(i, j)` of `A · B` is `Σ_k A[i,k] · B[k,j]`, the value
an i-j-k loop nest accumulates.  (Spec-side definition for the
refinement claim C3.) -/
def refTripleLoopMul (M : Nat) (A B : List ℚ) (i j : Nat) : ℚ :=
  ((List.range M).map (fun k => A.getD (i * M + k) 0 * B.getD (k * M + j) 0)).sum

/-- Reading a zero-filled list with default `0` always yields `0`. -/
theorem getD_replicate_zero (n m : Nat) : (List.replicate n (0 : ℚ)).getD m 0 = 0 := by
  rcases lt_or_ge m n with h | h
  · simp [List.getD_eq_getElem?_getD, List.getElem?_replicate, h]
  · have : (List.replicate n (0 : ℚ)).length ≤ m := by simpa using h
    simp [List.getD_eq_getElem?_getD, List.getElem?_eq_none this]

/-- Reading back the entry just written. -/
theorem getD_set_same (l : List ℚ) (n : Nat) (v : ℚ) (h : n < l.length) :
    (l.set n v).getD n 0 = v := by
  simp [List.getD_eq_getElem?_getD, List.getElem?_set_eq_of_lt v h]

/-- Writing one entry leaves every other entry unchanged. -/
theorem getD_set_other (l : List ℚ) (n m : Nat) (v : ℚ) (h : n ≠ m) :
    (l.set n v).getD m 0 = l.getD m 0 := by
  simp [List.getD_eq_getElem?_getD, List.getElem?_set_ne h]

/-- Row-major index injectivity: with both columns below `M`, equal flat
indices have equal rows and columns. -/
theorem flatIdx_inj {M i₁ j₁ i₂ j₂ : Nat} (h1 : j₁ < M) (h2 : j₂ < M)
    (he : i₁ * M + j₁ = i₂ * M + j₂) : i₁ = i₂ ∧ j₁ = j₂ := by
  have e1 : (i₁ * M + j₁) % M = j₁ := by
    rw [Nat.mul_comm, Nat.mul_add_mod]; exact Nat.mod_eq_of_lt h1
  have e2 : (i₂ * M + j₂) % M = j₂ := by
    rw [Nat.mul_comm, Nat.mul_add_mod]; exact Nat.mod_eq_of_lt h2
  have hj : j₁ = j₂ := by rw [← e1, he, e2]
  refine ⟨?_, hj⟩
  have hM : 0 < M := by omega
  have hmul : i₁ * M = i₂ * M := by omega
  exact Nat.eq_of_mul_eq_mul_right hM hmul

/-- A flat index of an in-range cell is inside the `M * M` storage. -/
theorem flatIdx_lt {M i j : Nat} (hi : i < M) (hj : j < M) : i * M + j < M * M := by
  calc i * M + j < i * M + M := by omega
  _ = (i + 1) * M := by ring
  _ ≤ M * M := Nat.mul_le_mul_right M (by omega)

theorem mulJ_length (M i k : Nat) (aik : ℚ) (B : List ℚ) :
    ∀ r j C, (mulJ M i k aik B r j C).length = C.length := by
  intro r
  induction r with
  | zero => intro j C; rfl
  | succ r ih => intro j C; rw [mulJ, ih]; simp

theorem mulK_length (M i : Nat) (A B : List ℚ) :
    ∀ r k C, (mulK M i A B r k C).length = C.length := by
  intro r
  induction r with
  | zero => intro k C; rfl
  | succ r ih => intro k C; rw [mulK, ih, mulJ_length]

/-- Effect of the innermost j-sweep on an arbitrary in-range cell: the
cells of row `i` with column in `[j, j + r)` gain `aik · B[k, j']`; all
other cells are untouched. -/
theorem mulJ_getD (M i k : Nat) (aik : ℚ) (B : List ℚ) (hi : i < M) :
    ∀ r j C, j + r ≤ M → C.length = M * M → ∀ i' j', i' < M → j' < M →
      (mulJ M i k aik B r j C).getD (i' * M + j') 0 =
        C.getD (i' * M + j') 0 +
          (if i' = i ∧ j ≤ j' ∧ j' < j + r then aik * B.getD (k * M + j') 0 else 0) := by
  intro r
  induction r with
  | zero =>
    intro j C _ _ i' j' _ _
    have : ¬ (i' = i ∧ j ≤ j' ∧ j' < j + 0) := by omega
    simp [mulJ, this]
  | succ r ih =>
    intro j C hjr hC i' j' hi' hj'
    have hjM : j < M := by omega
    have hidx : i * M + j < C.length := hC ▸ flatIdx_lt hi hjM
    rw [mulJ]
    rw [ih (j + 1) _ (by omega) (by simp [hC]) i' j' hi' hj']
    by_cases hsame : i' = i ∧ j' = j
    · obtain ⟨hie, hje⟩ := hsame
      subst hie; subst hje
      rw [getD_set_same _ _ _ hidx]
      have hc1 : ¬ (i' = i' ∧ j' + 1 ≤ j' ∧ j' < j' + 1 + r) := by omega
      have hc2 : i' = i' ∧ j' ≤ j' ∧ j' < j' + (r + 1) := by omega
      rw [if_neg hc1, if_pos hc2]
      ring
    · have hne : i * M + j ≠ i' * M + j' := by
        intro he
        exact hsame ⟨((flatIdx_inj hjM hj' he).1).symm, ((flatIdx_inj hjM hj' he).2).symm⟩
      rw [getD_set_other _ _ _ _ hne]
      congr 1
      by_cases hieq : i' = i
      · subst hieq
        have hjne : j' ≠ j := fun he => hsame ⟨rfl, he⟩
        by_cases hc : j + 1 ≤ j' ∧ j' < j + 1 + r
        · rw [if_pos ⟨rfl, hc.1, hc.2⟩, if_pos ⟨rfl, by omega, by omega⟩]
        · rw [if_neg (by omega), if_neg (by omega)]
      · rw [if_neg (by tauto), if_neg (by tauto)]

/-- Effect of the k-sweep on an arbitrary in-range cell: row `i` gains
`Σ_{t<r} A[i, k+t] · B[k+t, j']`; other rows are untouched. -/
theorem mulK_getD (M i : Nat) (A B : List ℚ) (hi : i < M) :
    ∀ r k C, C.length = M * M → ∀ i' j', i' < M → j' < M →
      (mulK M i A B r k C).getD (i' * M + j') 0 =
        C.getD (i' * M + j') 0 +
          (if i' = i then
            ∑ t in Finset.range r, A.getD (i * M + (k + t)) 0 * B.getD ((k + t) * M + j') 0
           else 0) := by
  intro r
  induction r with
  | zero =>
    intro k C _ i' j' _ _
    simp [mulK]
  | succ r ih =>
    intro k C hC i' j' hi' hj'
    rw [mulK]
    rw [ih (k + 1) _ (by rw [mulJ_length, hC]) i' j' hi' hj']
    rw [mulJ_getD M i k (A.getD (i * M + k) 0) B hi M 0 C (by omega) hC i' j' hi' hj']
    by_cases hieq : i' = i
    · subst hieq
      rw [if_pos ⟨rfl, by omega, by omega⟩, if_pos rfl, if_pos rfl]
      rw [Finset.sum_range_succ']
      have hsum : ∀ t ∈ Finset.range r,
          A.getD (i' * M + (k + 1 + t)) 0 * B.getD ((k + 1 + t) * M + j') 0 =
          A.getD (i' * M + (k + (t + 1))) 0 * B.getD ((k + (t + 1)) * M + j') 0 := by
        intro t _
        rw [show k + 1 + t = k + (t + 1) from by omega]
      rw [Finset.sum_congr rfl hsum]
      have hk0 : k + 0 = k := by omega
      rw [hk0]
      ring
    · rw [if_neg (by tauto), if_neg hieq, if_neg hieq]
      ring

/-- Effect of the outer i-sweep: rows in `[i, i + r)` gain their complete
dot products; other rows are untouched. -/
theorem mulI_getD (M : Nat) (A B : List ℚ) :
    ∀ r i C, i + r ≤ M → C.length = M * M → ∀ i' j', i' < M → j' < M →
      (mulI M A B r i C).getD (i' * M + j') 0 =
        C.getD (i' * M + j') 0 +
          (if i ≤ i' ∧ i' < i + r then
            ∑ k in Finset.range M, A.getD (i' * M + k) 0 * B.getD (k * M + j') 0
           else 0) := by
  intro r
  induction r with
  | zero =>
    intro i C _ _ i' j' _ _
    have : ¬ (i ≤ i' ∧ i' < i + 0) := by omega
    simp [mulI, this]
  | succ r ih =>
    intro i C hir hC i' j' hi' hj'
    have hiM : i < M := by omega
    rw [mulI]
    rw [ih (i + 1) _ (by omega) (by rw [mulK_length, hC]) i' j' hi' hj']
    rw [mulK_getD M i A B hiM M 0 C hC i' j' hi' hj']
    by_cases hieq : i' = i
    · subst hieq
      rw [if_pos rfl, if_neg (by omega), if_pos ⟨by omega, by omega⟩]
      have hsum : ∀ t ∈ Finset.range M,
          A.getD (i' * M + (0 + t)) 0 * B.getD ((0 + t) * M + j') 0 =
          A.getD (i' * M + t) 0 * B.getD (t * M + j') 0 := by
        intro t _
        rw [show 0 + t = t from by omega]
      rw [Finset.sum_congr rfl hsum]
      ring
    · rw [if_neg hieq]
      by_cases hc : i + 1 ≤ i' ∧ i' < i + 1 + r
      · rw [if_pos hc, if_pos ⟨by omega, by omega⟩]
        ring
      · rw [if_neg hc, if_neg (by omega)]
        ring

/-- Correctness of the i-k-j accumulation order: starting from the
zero-initialised `C`, every in-range cell of `matMul M A B` holds the
mathematical dot product `Σ_k A[i,k] · B[k,j]`. -/
theorem matMul_getD (M : Nat) (A B : List ℚ) (i j : Nat) (hi : i < M) (hj : j < M) :
    (matMul M A B).getD (i * M + j) 0 =
      ∑ k in Finset.range M, A.getD (i * M + k) 0 * B.getD (k * M + j) 0 := by
  rw [matMul]
  rw [mulI_getD M A B M 0 _ (by omega) (by simp) i j hi hj]
  rw [getD_replicate_zero, if_pos ⟨by omega, by omega⟩]
  ring

/-- A `List.range`-mapped sum is the corresponding `Finset.range` sum. -/
theorem listRange_map_sum (g : Nat → ℚ) :
    ∀ n, ((List.range n).map g).sum = ∑ t in Finset.range n, g t := by
  intro n
  induction n with
  | zero => simp
  | succ n ih => rw [List.range_succ, Finset.sum_range_succ, List.map_append, List.sum_append, ih]; simp

/-- Claim C3: at `size = 4` with seed `123456789` and the code's generator
interleaving, every entry of the i-k-j accumulation-order product agrees
with the straightforward reference triple-loop product of the same `A`
and `B` within `1e-9`: over exact rational arithmetic the two are equal
(by `matMul_getD`, which holds for every size), so the difference is `0`. -/
theorem matrix_mul_size4_matches_reference :
    ∀ i j : Fin 4,
      |(matMulFull 4).getD (i.val * 4 + j.val) 0
          - refTripleLoopMul 4 (matInit 16).1 (matInit 16).2 i.val j.val|
        ≤ 1 / 1000000000 := by
  intro i j
  have hfull : matMulFull 4 = matMul 4 (matInit 16).1 (matInit 16).2 := rfl
  rw [hfull, matMul_getD 4 _ _ i.val j.val i.isLt j.isLt, refTripleLoopMul,
    listRange_map_sum]
  simp

/-- The checksum stride is always at least 1 (for `M > 8` it is
`M / 8 ≥ 1`, otherwise it is the literal 1), so the checksum loop
advances and terminates. -/
theorem matStride_pos (M : Nat) : 1 ≤ matStride M := by
  unfold matStride; split <;> omega

/-- The code's stride expression `(M > 8 ? M/8 : 1)` equals the spec's
`max(1, M/8)` for every `M` (in particular for every `M ≥ 1`). -/
theorem matStride_eq_max (M : Nat) : matStride M = max 1 (M / 8) := by
  rw [matStride]
  rcases Nat.lt_or_ge 8 M with h | h
  · rw [if_pos h]
    have h1 : 1 ≤ M / 8 := by omega
    exact (Nat.max_eq_right h1).symm
  · rw [if_neg (by omega)]
    have h1 : M / 8 ≤ 1 := by omega
    exact (Nat.max_eq_left h1).symm

/-- `⌈M / s⌉ = (M + s - 1) / s` counts the indices `0, s, 2s, …` that are
below `M`. -/
theorem lt_ceilDiv_iff {s : Nat} (hs : 0 < s) (M t : Nat) :
    t < (M + s - 1) / s ↔ t * s < M := by
  rw [Nat.lt_iff_add_one_le, Nat.le_div_iff_mul_le hs]
  have h : (t + 1) * s = t * s + s := by ring
  omega

/-- The number of stride-`s` samples below `M` is at most `M`. -/
theorem ceilDiv_le_self {s : Nat} (hs : 1 ≤ s) (M : Nat) : (M + s - 1) / s ≤ M := by
  have h1 : (M + s - 1) / s < M + 1 := by
    rw [Nat.div_lt_iff_lt_mul (by omega)]
    have h : (M + 1) * s = M * s + s := by ring
    have h2 : M * 1 ≤ M * s := Nat.mul_le_mul_left M hs
    omega
  omega

/-- One-step unfolding of `checksumGo`. -/
theorem checksumGo_succ (M : Nat) (C : List ℚ) (fuel i : Nat) (acc : ℚ) :
    checksumGo M C (fuel + 1) i acc =
      if i < M then checksumGo M C fuel (i + matStride M) (acc + C.getD (i * M + i % M) 0)
      else acc := rfl

/-- The checksum loop visits exactly the indices `t·s` for
`t = 0, 1, …` with `t·s < M` (`s` the stride), provided the budget covers
the remaining samples. -/
theorem checksumGo_sum (M : Nat) (C : List ℚ) :
    ∀ fuel t acc, (M + matStride M - 1) / matStride M ≤ t + fuel →
      checksumGo M C fuel (t * matStride M) acc =
        acc + ((List.range' t ((M + matStride M - 1) / matStride M - t)).map
          (fun u => C.getD (u * matStride M * M + u * matStride M % M) 0)).sum := by
  intro fuel
  induction fuel with
  | zero =>
    intro t acc h
    rw [show (M + matStride M - 1) / matStride M - t = 0 from by omega]
    simp [checksumGo]
  | succ fuel ih =>
    intro t acc h
    set s := matStride M with hsdef
    set K := (M + s - 1) / s with hKdef
    by_cases hlt : t * s < M
    · have htK : t < K := by rw [hKdef]; exact (lt_ceilDiv_iff (matStride_pos M) M t).mpr hlt
      rw [checksumGo_succ, if_pos hlt]
      have hstep : t * s + s = (t + 1) * s := by ring
      rw [hstep, ih (t + 1) _ (by omega)]
      rw [show K - t = (K - (t + 1)) + 1 from by omega]
      rw [List.range'_succ]
      rw [List.map_cons, List.sum_cons]
      ring
    · have htK : ¬ t < K := fun hc =>
        hlt ((lt_ceilDiv_iff (matStride_pos M) M t).mp (by rw [hKdef] at hc; exact hc))
      rw [show K - t = 0 from by omega]
      rw [checksumGo_succ, if_neg hlt]
      simp

/-- The spec's sampled checksum (§4.3 step 6): the sum of `C[i, i mod size]`
over the sampled row indices `i = 0, s, 2s, … (i < size)` — i.e. the
multiples of the stride `s = max(1, size/8)` below `size`.
(Spec-side definition for claim C4.) -/
def specSampledSum (M : Nat) (g : Nat → ℚ) : ℚ :=
  ∑ i in (Finset.range M).filter (fun i => i % (max 1 (M / 8)) = 0), g i

/-- Reindexing: summing `g` over the multiples of `s` below `M` is summing
`g (t·s)` over `t < ⌈M/s⌉`. -/
theorem sampled_sum_bij {s : Nat} (hs : 0 < s) (M : Nat) (g : Nat → ℚ) :
    ∑ t in Finset.range ((M + s - 1) / s), g (t * s)
      = ∑ i in (Finset.range M).filter (fun i => i % s = 0), g i := by
  refine Finset.sum_nbij' (fun t => t * s) (fun i => i / s) ?_ ?_ ?_ ?_ ?_
  · intro t ht
    rw [Finset.mem_filter, Finset.mem_range]
    exact ⟨(lt_ceilDiv_iff hs M t).mp (Finset.mem_range.mp ht), Nat.mul_mod_left t s⟩
  · intro i hi
    rw [Finset.mem_filter, Finset.mem_range] at hi
    rw [Finset.mem_range]
    rw [lt_ceilDiv_iff hs]
    rw [Nat.div_mul_cancel (Nat.dvd_of_mod_eq_zero hi.2)]
    exact hi.1
  · intro t _
    exact Nat.mul_div_left t hs
  · intro i hi
    rw [Finset.mem_filter] at hi
    exact Nat.div_mul_cancel (Nat.dvd_of_mod_eq_zero hi.2)
  · intro t _
    rfl

/-- Claim C4: for every size `M ≥ 1` the checksum computed by the kernel's
strided loop equals the sum of `C[i, i mod M]` over the sampled row
indices `i = 0, s, 2s, … (i < M)` with stride `s = max(1, M/8)`; in
particular the code's stride expression `(M > 8 ? M/8 : 1)` equals
`max(1, M/8)`. -/
theorem matrix_checksum_sampling (M : Nat) (h : 1 ≤ M) :
    matStride M = max 1 (M / 8) ∧
    matChecksum M = specSampledSum M (fun i => (matMulFull M).getD (i * M + i % M) 0) := by
  refine ⟨matStride_eq_max M, ?_⟩
  rw [matChecksum]
  have hK : (M + matStride M - 1) / matStride M ≤ 0 + M := by
    have := ceilDiv_le_self (matStride_pos M) M
    omega
  have h0 := checksumGo_sum M (matMulFull M) M 0 0 hK
  rw [Nat.zero_mul] at h0
  rw [h0, Nat.sub_zero, ← List.range_eq_range', listRange_map_sum, zero_add]
  rw [sampled_sum_bij (matStride_pos M) M (fun i => (matMulFull M).getD (i * M + i % M) 0)]
  rw [specSampledSum, ← matStride_eq_max M]

/-- Witness for C4 at `M = 4`. -/
theorem matrix_checksum_sampling_witness :
    (1 ≤ 4) ∧
    (matStride 4 = max 1 (4 / 8) ∧
     matChecksum 4 = specSampledSum 4 (fun i => (matMulFull 4).getD (i * 4 + i % 4) 0)) :=
  ⟨by decide, matrix_checksum_sampling 4 (by decide)⟩

/-! ## Mandelbrot rasterizer (`mandelbrot_ppm`, main.c lines 95–125) -/

/-- The escape-time loop of main.c lines 104–111:
`while(zx*zx + zy*zy <= 4.0 && iter < maxiter){ … iter++; }`.
The first argument is the remaining iteration allowance
(`maxiter - iter`), which makes the loop structurally recursive; the
returned value is the number of iterations executed from the given
state. -/
def mandelLoop (cx cy : ℚ) : Nat → ℚ → ℚ → Nat
  | 0, _, _ => 0
  | fuel + 1, zx, zy =>
    if zx * zx + zy * zy ≤ 4 then
      mandelLoop cx cy fuel (zx * zx - zy * zy + cx) (2 * zx * zy + cy) + 1
    else 0

/-- The iteration count the rasterizer computes for the complex point
`(cx, cy)`: iterate `z ← z² + c` from `z = 0` until `|z|² > 4` or the
count reaches `maxiter`. -/
def mandelIter (cx cy : ℚ) (maxiter : Nat) : Nat := mandelLoop cx cy maxiter 0 0

/-- C `int c = (int)(255.0 * iter / (double)maxiter)` (main.c line 116):
the value is non-negative, so the C truncation toward zero is the floor.
(For `iter ≤ maxiter` far below `2^45` the double quotient truncates to
the same integer as the exact one, so the exact floor is faithful.) -/
def colorIndex (iter maxiter : Nat) : Nat := ⌊(255 * (iter : ℚ)) / (maxiter : ℚ)⌋₊

/-- The pixel the rasterizer emits for the complex point `(cx, cy)`
(main.c lines 112–120): black when the loop reached `maxiter`, otherwise
the channels `(c % 256, c*3 % 256, c*7 % 256)` for the color index `c`. -/
def mandelPixel (cx cy : ℚ) (maxiter : Nat) : Nat × Nat × Nat :=
  let iter := mandelIter cx cy maxiter
  if iter = maxiter then (0, 0, 0)
  else
    let c := colorIndex iter maxiter
    (c % 256, c * 3 % 256, c * 7 % 256)

/-- One-step unfolding of `mandelLoop`. -/
theorem mandelLoop_succ (cx cy : ℚ) (fuel : Nat) (zx zy : ℚ) :
    mandelLoop cx cy (fuel + 1) zx zy =
      if zx * zx + zy * zy ≤ 4 then
        mandelLoop cx cy fuel (zx * zx - zy * zy + cx) (2 * zx * zy + cy) + 1
      else 0 := rfl

/-- The loop executes at most its remaining allowance. -/
theorem mandelLoop_le (cx cy : ℚ) : ∀ fuel zx zy, mandelLoop cx cy fuel zx zy ≤ fuel := by
  intro fuel
  induction fuel with
  | zero => intro zx zy; exact Nat.le_refl 0
  | succ fuel ih =>
    intro zx zy
    rw [mandelLoop_succ]
    split
    · exact Nat.add_le_add_right (ih _ _) 1
    · exact Nat.zero_le _


/-- The exact color index is the natural-number floor division. -/
theorem colorIndex_eq_div (iter maxiter : Nat) :
    colorIndex iter maxiter = 255 * iter / maxiter := by
  rw [colorIndex]
  rw [show (255 * (iter : ℚ)) = ((255 * iter : ℕ) : ℚ) from by push_cast; ring]
  exact Nat.floor_div_nat (α := ℚ) _ _

/-- Claim C5: for every pixel the rasterizer counts iterations of
`z ← z² + c` from `z = 0` until `|z|² > 4` or the count reaches
`max_iterations` (so the count never exceeds `max_iterations`); a pixel
whose count reaches `max_iterations` is exactly `(0,0,0)`, and every
escaped pixel has channels `R = c mod 256`, `G = (3c) mod 256`,
`B = (7c) mod 256` for `c = ⌊255·iter/max_iterations⌋`. -/
theorem mandelbrot_pixel_coloring (cx cy : ℚ) (maxiter : Nat) :
    mandelIter cx cy maxiter ≤ maxiter ∧
    mandelPixel cx cy maxiter =
      (if mandelIter cx cy maxiter = maxiter then (0, 0, 0)
       else
        ((255 * mandelIter cx cy maxiter / maxiter) % 256,
         (3 * (255 * mandelIter cx cy maxiter / maxiter)) % 256,
         (7 * (255 * mandelIter cx cy maxiter / maxiter)) % 256)) := by
  refine ⟨mandelLoop_le cx cy maxiter 0 0, ?_⟩
  rw [mandelPixel]
  by_cases hidone : mandelIter cx cy maxiter = maxiter
  · simp [hidone]
  · simp only [if_neg hidone]
    rw [colorIndex_eq_div]
    rw [Nat.mul_comm (255 * mandelIter cx cy maxiter / maxiter) 3,
      Nat.mul_comm (255 * mandelIter cx cy maxiter / maxiter) 7]

/-- Claim C10: an escaped pixel whose iteration count `iter` satisfies
`255·iter < max_iterations` gets color index `c = 0` and is rendered
exactly `(0,0,0)`, identical to an interior pixel — so an all-black pixel
does not imply its point reached `max_iterations`. -/
theorem black_pixel_not_only_interior (cx cy : ℚ) (maxiter : Nat)
    (hesc : mandelIter cx cy maxiter < maxiter)
    (hsmall : 255 * mandelIter cx cy maxiter < maxiter) :
    colorIndex (mandelIter cx cy maxiter) maxiter = 0 ∧
    mandelPixel cx cy maxiter = (0, 0, 0) := by
  have hc : colorIndex (mandelIter cx cy maxiter) maxiter = 0 := by
    rw [colorIndex_eq_div]
    exact Nat.div_eq_of_lt hsmall
  refine ⟨hc, ?_⟩
  rw [mandelPixel]
  rw [if_neg (by omega)]
  rw [hc]

/-- Witness for C10: at `maxiter = 256` the point `c = (3, 0)` escapes
after exactly one iteration, and its pixel is black. -/
theorem black_pixel_not_only_interior_witness :
    mandelIter 3 0 256 < 256 ∧ 255 * mandelIter 3 0 256 < 256 ∧
    mandelPixel 3 0 256 = (0, 0, 0) := by
  have h1 : mandelIter 3 0 256 = 1 := by
    rw [mandelIter, show (256 : Nat) = 255 + 1 from rfl, mandelLoop_succ]
    rw [if_pos (by norm_num)]
    rw [show (255 : Nat) = 254 + 1 from rfl, mandelLoop_succ]
    rw [if_neg (by norm_num)]
  refine ⟨by omega, by omega, ?_⟩
  exact (black_pixel_not_only_interior 3 0 256 (by omega) (by omega)).2

/-! ## PPM serialization (`mandelbrot_ppm`, main.c lines 95–125) -/

/-- The complex x-coordinate of pixel column `x`:
C `double cx = (x - 0.5*width) * (3.5/width) - 0.5;`. -/
def pixelCx (w x : Nat) : ℚ := ((x : ℚ) - 1/2 * w) * ((7/2) / w) - 1/2

/-- The complex y-coordinate of pixel row `y`:
C `double cy = (y - 0.5*height) * (2.0/height);`. -/
def pixelCy (h y : Nat) : ℚ := ((y : ℚ) - 1/2 * h) * (2 / h)

/-- The three bytes `col[0..2]` written for pixel `(x, y)`
(main.c line 121). -/
def pixelBytes (w h maxiter x y : Nat) : List Nat :=
  let p := mandelPixel (pixelCx w x) (pixelCy h y) maxiter
  [p.1, p.2.1, p.2.2]

/-- The PPM header written by `fprintf(f, "P6\n%d %d\n255\n", width, height)`
(main.c line 98). -/
def ppmHeader (w h : Nat) : String :=
  "P6\n" ++ toString w ++ " " ++ toString h ++ "\n255\n"

/-- The raw pixel bytes, rows top-to-bottom and pixels left-to-right
(main.c lines 100–123). -/
def ppmPixelData (w h maxiter : Nat) : List Nat :=
  ((List.range h).map (fun y => ((List.range w).map (fun x => pixelBytes w h maxiter x y)).flatten)).flatten

/-- The byte stream the rasterizer writes: the ASCII header followed
immediately by the raw pixel data. -/
def ppmFile (w h maxiter : Nat) : List Nat :=
  ((ppmHeader w h).toList.map Char.toNat) ++ ppmPixelData w h maxiter

theorem pixelBytes_length (w h maxiter x y : Nat) : (pixelBytes w h maxiter x y).length = 3 := rfl

/-- Claim C6: for every `(width, height)` the serialized image is the
ASCII header followed by exactly `width·height·3` raw pixel bytes, so its
total byte length is `len(header) + width·height·3`; and for
`width = 400, height = 300` the header is exactly the literal
`"P6\n400 300\n255\n"`. -/
theorem ppm_output_format (w h maxiter : Nat) :
    (ppmFile w h maxiter).length = (ppmHeader w h).length + w * h * 3 ∧
    (ppmPixelData w h maxiter).length = w * h * 3 ∧
    ppmHeader 400 300 = "P6\n400 300\n255\n" := by
  have hrow : ∀ y, (((List.range w).map (fun x => pixelBytes w h maxiter x y)).flatten).length
      = w * 3 := by
    intro y
    rw [List.length_flatten, List.map_map]
    have : (List.length ∘ fun x => pixelBytes w h maxiter x y) = fun _ => 3 :=
      funext fun x => pixelBytes_length w h maxiter x y
    rw [this, List.map_const', List.sum_replicate, List.length_range, smul_eq_mul]
  have hdata : (ppmPixelData w h maxiter).length = w * h * 3 := by
    rw [ppmPixelData, List.length_flatten, List.map_map]
    have : (List.length ∘ fun y =>
        ((List.range w).map (fun x => pixelBytes w h maxiter x y)).flatten) = fun _ => w * 3 :=
      funext fun y => hrow y
    rw [this, List.map_const', List.sum_replicate, List.length_range, smul_eq_mul]
    ring
  refine ⟨?_, hdata, by decide⟩
  rw [ppmFile, List.length_append, hdata, List.length_map]
  rfl

/-! ## Error sentinels (claim C7) and the harness (`main`, lines 127–158) -/

/-- Claim C7: each kernel signals allocation failure by a sentinel distinct
from every valid success value.  `sieve_count_primes` reports `-1` on
allocation failure while every successfully computed count is `≥ 0` (it
never silently reports 0 on failure); the matrix kernel reports the
elapsed time `-1` and no checksum on allocation failure, while on success
with a monotone clock (`clock 0 ≤ clock 1`, guaranteed by the monotonic
time source) the reported elapsed time is `≥ 0`, so a negative time can
never arise from a valid timing. -/
theorem kernel_failure_sentinels :
    (∀ limit c : Int, sieve_count_primes limit true = some c → 0 ≤ c) ∧
    (∀ limit : Int, sieve_count_primes limit false = some (-1)) ∧
    (∀ (M : Nat) (clock : Nat → ℚ),
      (matrix_mul_test M false clock).1 = -1 ∧ (matrix_mul_test M false clock).2 = none) ∧
    (∀ (M : Nat) (clock : Nat → ℚ), clock 0 ≤ clock 1 →
      0 ≤ (matrix_mul_test M true clock).1) := by
  refine ⟨?_, ?_, ?_, ?_⟩
  · intro limit c h
    simp only [sieve_count_primes] at h
    rw [if_neg (show ¬(true = false) by decide)] at h
    by_cases hneg : limit + 1 < 0
    · rw [if_pos hneg] at h; cases h
    · rw [if_neg hneg] at h
      rcases hb1 : bSet (List.replicate ((limit + 1).toNat) true) 1 false with _ | l1
      · simp only [hb1, Option.none_bind] at h; cases h
      simp only [hb1, Option.some_bind] at h
      rcases hb2 : bSet l1 0 false with _ | l2
      · simp only [hb2, Option.none_bind] at h; cases h
      simp only [hb2, Option.some_bind] at h
      rcases hb3 : outerStep limit.toNat (limit.toNat + 1) 2 l2 with _ | l3
      · simp only [hb3, Option.none_bind] at h; cases h
      simp only [hb3, Option.some_bind] at h
      rcases hb4 : countStep limit.toNat (limit.toNat + 2) 2 0 l3 with _ | n
      · simp only [hb4, Option.map_none'] at h; cases h
      simp only [hb4, Option.map_some'] at h
      injection h with h'
      have h2 : (n : Int) = c := h'
      omega
  · intro limit
    rw [sieve_count_primes, if_pos rfl]
  · intro M clock
    exact ⟨rfl, rfl⟩
  · intro M clock hmono
    have hv : (matrix_mul_test M true clock).1 = clock 1 - clock 0 := rfl
    rw [hv]
    linarith

/-- Witness for C7: concrete instances of each sentinel/validity fact. -/
theorem kernel_failure_sentinels_witness :
    (0 : Int) ≤ 4 ∧ sieve_count_primes 1 false = some (-1) ∧
    (matrix_mul_test 2 false (fun _ => 0)).1 = -1 ∧
    0 ≤ (matrix_mul_test 2 true (fun _ => 5)).1 :=
  ⟨kernel_failure_sentinels.1 10 4 (by decide),
   kernel_failure_sentinels.2.1 1,
   (kernel_failure_sentinels.2.2.1 2 (fun _ => 0)).1,
   kernel_failure_sentinels.2.2.2 2 (fun _ => 5) (le_refl 5)⟩

/-- The four stages of `main` after its banner: the three kernels and the
final summary print. -/
inductive Stage
  | sieve
  | matrix
  | mandelbrot
  | summary

/-- Everything observable from one run of `main`: the stages executed in
order, each kernel's result as handed to the summary, and the process
exit status. -/
structure MainResult where
  stagesRun : List Stage
  primeCount : Option Int
  matTime : ℚ
  matChecksumOut : Option ℚ
  imageBytes : Option (List Nat)
  exitCode : Int

/-- C `main` (main.c lines 127–158).  The compiled-in parameters are
`SIEVE_LIMIT = 100000`, `MAT_SIZE = 140`, `MAN = 400×300`,
`MAN_MAXITER = 256`.  `main` is branch-free: it calls the three kernels
unconditionally in the fixed order sieve, matrix, mandelbrot (the file
write is skipped inside `mandelbrot_ppm` when `fopen` fails, which stops
nothing else), prints the summary, and returns 0.  The environment
outcomes (`sieveAllocOk`, `matAllocOk`, `fileOk`, `clock`) are explicit
parameters. -/
def mainRun (sieveAllocOk matAllocOk fileOk : Bool) (clock : Nat → ℚ) : MainResult :=
  let pc := sieve_count_primes 100000 sieveAllocOk
  let mt := matrix_mul_test 140 matAllocOk clock
  let img := if fileOk then some (ppmFile 400 300 256) else none
  { stagesRun := [Stage.sieve, Stage.matrix, Stage.mandelbrot, Stage.summary]
    primeCount := pc
    matTime := mt.1
    matChecksumOut := mt.2
    imageBytes := img
    exitCode := 0 }

/-- Claim C8: for every combination of kernel outcomes (allocation
success/failure in either kernel, file-open success/failure, any clock),
the harness executes all three stages in the fixed order sieve, matrix
multiply, mandelbrot, then prints the summary, and the process exit
status is 0.  `main` contains no branch on any kernel result, so no
failure prevents a later stage or changes the exit status. -/
theorem harness_runs_all_stages (sieveAllocOk matAllocOk fileOk : Bool) (clock : Nat → ℚ) :
    (mainRun sieveAllocOk matAllocOk fileOk clock).stagesRun =
      [Stage.sieve, Stage.matrix, Stage.mandelbrot, Stage.summary] ∧
    (mainRun sieveAllocOk matAllocOk fileOk clock).exitCode = 0 :=
  ⟨rfl, rfl⟩
